import Mathlib

/-!
# Verification of the Distributed-Cache core against its specification

Shallow embedding of the repository `sanke08/Distributed-Cache` (Go).
Go maps are embedded as association lists (`List (κ × α)`) whose keys are
kept unique by the operations themselves; `time.Time` instants and
`time.Duration` values are embedded as `Int` nanoseconds, with the zero
`time.Time` rendered as `none : Option Int`; byte slices are `List Nat`
with entries below 256.
-/

set_option autoImplicit false

namespace DCache

/-! ## Go map embedding -/

variable {κ α : Type} [DecidableEq κ]

/-- Read of Go map `m[k]` with `ok` flag: `none` when the key is absent. -/
def mapGet? : List (κ × α) → κ → Option α
  | [], _ => none
  | (k', v) :: rest, k => if k' = k then some v else mapGet? rest k

/-- Go map assignment `m[k] = v`: replace the resident entry, else append. -/
def mapSet : List (κ × α) → κ → α → List (κ × α)
  | [], k, v => [(k, v)]
  | (k', v') :: rest, k, v =>
      if k' = k then (k, v) :: rest else (k', v') :: mapSet rest k v

/-- Go `delete(m, k)`: drop every entry stored under `k`. -/
def mapErase : List (κ × α) → κ → List (κ × α)
  | [], _ => []
  | (k', v) :: rest, k =>
      if k' = k then mapErase rest k else (k', v) :: mapErase rest k

/-- The keys of the map in iteration order. -/
def mapKeys (m : List (κ × α)) : List κ := m.map (·.1)

@[simp] theorem mapGet?_nil (k : κ) : mapGet? ([] : List (κ × α)) k = none := rfl

@[simp] theorem mapGet?_cons (k' k : κ) (v : α) (rest : List (κ × α)) :
    mapGet? ((k', v) :: rest) k = if k' = k then some v else mapGet? rest k := rfl

theorem mapGet?_mapSet_self (m : List (κ × α)) (k : κ) (v : α) :
    mapGet? (mapSet m k v) k = some v := by
  induction m with
  | nil => simp [mapSet]
  | cons hd tl ih =>
      obtain ⟨k', v'⟩ := hd
      by_cases h : k' = k <;> simp [mapSet, h, ih]

theorem mapGet?_mapSet_ne (m : List (κ × α)) (k k' : κ) (v : α) (h : k' ≠ k) :
    mapGet? (mapSet m k v) k' = mapGet? m k' := by
  have hne : k ≠ k' := fun hkk => h hkk.symm
  induction m with
  | nil => simp [mapSet, hne]
  | cons hd tl ih =>
      obtain ⟨k₀, v₀⟩ := hd
      by_cases hk : k₀ = k
      · subst hk
        simp [mapSet, hne]
      · simp only [mapSet, if_neg hk, mapGet?_cons, ih]

theorem mapGet?_mapErase_self (m : List (κ × α)) (k : κ) :
    mapGet? (mapErase m k) k = none := by
  induction m with
  | nil => simp [mapErase]
  | cons hd tl ih =>
      obtain ⟨k', v⟩ := hd
      by_cases h : k' = k <;> simp [mapErase, h, ih]

theorem mapGet?_mapErase_ne (m : List (κ × α)) (k k' : κ) (h : k' ≠ k) :
    mapGet? (mapErase m k) k' = mapGet? m k' := by
  induction m with
  | nil => simp [mapErase]
  | cons hd tl ih =>
      obtain ⟨k₀, v₀⟩ := hd
      have hne : k ≠ k' := fun hkk => h hkk.symm
      by_cases hk : k₀ = k
      · subst hk
        simp [mapErase, hne, ih]
      · simp only [mapErase, if_neg hk, mapGet?_cons, ih]

theorem mapKeys_mapSet_present (m : List (κ × α)) (k : κ) (v : α)
    (h : mapGet? m k ≠ none) : mapKeys (mapSet m k v) = mapKeys m := by
  induction m with
  | nil => simp [mapGet?] at h
  | cons hd tl ih =>
      obtain ⟨k₀, v₀⟩ := hd
      by_cases hk : k₀ = k
      · subst hk
        simp [mapSet, mapKeys]
      · simp only [mapGet?_cons, if_neg hk] at h
        simp [mapSet, hk, mapKeys, ih h, mapKeys] at *
        exact ih h

theorem mapKeys_mapSet_absent (m : List (κ × α)) (k : κ) (v : α)
    (h : mapGet? m k = none) : mapKeys (mapSet m k v) = mapKeys m ++ [k] := by
  induction m with
  | nil => simp [mapSet, mapKeys]
  | cons hd tl ih =>
      obtain ⟨k₀, v₀⟩ := hd
      by_cases hk : k₀ = k
      · subst hk
        simp [mapGet?] at h
      · simp only [mapGet?_cons, if_neg hk] at h
        simp [mapSet, hk, mapKeys] at *
        exact ih h

theorem mapKeys_mapErase (m : List (κ × α)) (k : κ) :
    mapKeys (mapErase m k) = (mapKeys m).filter (fun x => x ≠ k) := by
  induction m with
  | nil => simp [mapErase, mapKeys]
  | cons hd tl ih =>
      obtain ⟨k₀, v₀⟩ := hd
      by_cases hk : k₀ = k
      · subst hk
        simp [mapErase, mapKeys, List.filter] at *
        exact ih
      · simp [mapErase, hk, mapKeys, List.filter] at *
        exact ih

theorem mem_mapKeys_iff (m : List (κ × α)) (k : κ) :
    k ∈ mapKeys m ↔ mapGet? m k ≠ none := by
  induction m with
  | nil => simp [mapKeys]
  | cons hd tl ih =>
      obtain ⟨k₀, v₀⟩ := hd
      by_cases hk : k₀ = k
      · subst hk
        simp [mapKeys]
      · simp only [mapKeys, List.map_cons, List.mem_cons, mapGet?_cons, if_neg hk]
        constructor
        · intro hmem
          rcases hmem with h1 | h2
          · exact absurd h1.symm hk
          · exact (ih.mp h2)
        · intro hne
          exact Or.inr (ih.mpr hne)

omit [DecidableEq κ] in
theorem length_mapKeys (m : List (κ × α)) : (mapKeys m).length = m.length := by
  simp [mapKeys]

/-! ## Per-tenant store (`internal/cache/user_cache.go`) -/

/-- `Item` from `user_cache.go`: a value (byte slice) and an absolute expiry.
The zero `time.Time` (no expiry) is `none`. -/
structure Item where
  value : List Nat
  expiresAt : Option Int
  deriving DecidableEq, Repr

/-- `Item.isExpired(now)`: `false` when `ExpiresAt.IsZero()`, else
`now.After(ExpiresAt)` (strict). -/
def Item.isExpired (item : Item) (now : Int) : Bool :=
  match item.expiresAt with
  | none => false
  | some e => now > e

/-- `cache.Config` from `config.go`. Only `MaxEntries` affects the
semantics modelled here (`0` means unlimited). -/
structure Config where
  janitorInterval : Int
  initialCapacity : Nat
  maxEntries : Nat
  dataDir : String
  deriving DecidableEq, Repr

/-- `cache.DefaultConfig()`. -/
def DefaultConfig : Config :=
  { janitorInterval := 5000000000, initialCapacity := 64,
    maxEntries := 100, dataDir := "data" }

/-- `UserCache`: the items map together with the LRU key order
(front = most recent).  The Go code keeps a doubly-linked `lruList` plus a
`lruMap : key → element`; since `lruMap` indexes each list element by its
key, both are embedded as the single key list `lru`. -/
structure UserCache where
  items : List (String × Item)
  lru : List String
  maxEntries : Nat
  deriving DecidableEq, Repr

/-- `newUserCache(cfg)` (janitor goroutine not modelled). -/
def newUserCache (cfg : Config) : UserCache :=
  { items := [], lru := [], maxEntries := cfg.maxEntries }

/-- `addToLRU`: move to front when present (via `lruMap`), else push front. -/
def addToLRU (key : String) (lru : List String) : List String :=
  if key ∈ lru then key :: lru.erase key else key :: lru

/-- `moveToFront`: move an existing key's element to the front, no-op when
the key is not in the LRU map. -/
def moveToFront (key : String) (lru : List String) : List String :=
  if key ∈ lru then key :: lru.erase key else lru

/-- `removeFromLRU`: drop the key's element if present. -/
def removeFromLRU (key : String) (lru : List String) : List String :=
  lru.erase key

/-- The eviction loop at the end of `UserCache.set`:
`for len(items) > MaxEntries { back := lruList.Back(); if back == nil break;
delete(items, back.key); removeFromLRUElement(back) }`.
Also returns the evicted keys in eviction order. -/
def evictLoop (maxE : Nat) (items : List (String × Item)) (lru : List String)
    (acc : List String) : List (String × Item) × List String × List String :=
  go lru.length items lru acc
where
  go : Nat → List (String × Item) → List String → List String →
      List (String × Item) × List String × List String
  | fuel, items, lru, acc =>
    if items.length ≤ maxE then (items, lru, acc)
    else
      match lru.getLast? with
      | none => (items, lru, acc)
      | some back =>
          match fuel with
          | 0 => (items, lru, acc)
          | fuel' + 1 =>
              go fuel' (mapErase items back) lru.dropLast (acc ++ [back])

/-- `UserCache.set(key, value, ttl)` at wall-clock instant `now`,
instrumented to also return the list of evicted keys. -/
def UserCache.setWithEvicted (uc : UserCache) (key : String) (value : List Nat)
    (ttl now : Int) : UserCache × List String :=
  let expires : Option Int := if ttl > 0 then some (now + ttl) else none
  match mapGet? uc.items key with
  | some _ =>
      ({ uc with items := mapSet uc.items key ⟨value, expires⟩,
                 lru := moveToFront key uc.lru }, [])
  | none =>
      let items1 := mapSet uc.items key ⟨value, expires⟩
      let lru1 := addToLRU key uc.lru
      if uc.maxEntries > 0 then
        let (i2, l2, ev) := evictLoop uc.maxEntries items1 lru1 []
        ({ uc with items := i2, lru := l2 }, ev)
      else
        ({ uc with items := items1, lru := lru1 }, [])

/-- `UserCache.set` as the Go code exposes it (evicted keys discarded). -/
def UserCache.set (uc : UserCache) (key : String) (value : List Nat)
    (ttl now : Int) : UserCache :=
  (uc.setWithEvicted key value ttl now).1

/-- `UserCache.get(key)` at instant `now`: returns the item (value copied)
and the updated store: an expired item is removed, a live hit is promoted
to the LRU front. -/
def UserCache.get (uc : UserCache) (key : String) (now : Int) :
    Option Item × UserCache :=
  match mapGet? uc.items key with
  | none => (none, uc)
  | some item =>
      if item.isExpired now then
        (none, { uc with items := mapErase uc.items key,
                         lru := removeFromLRU key uc.lru })
      else
        (some item, { uc with lru := moveToFront key uc.lru })

/-- `UserCache.delete(key)`: drop the map entry and the LRU entry. -/
def UserCache.delete (uc : UserCache) (key : String) : UserCache :=
  { uc with items := mapErase uc.items key,
            lru := removeFromLRU key uc.lru }

/-- `UserCache.Snapshot()`: a copy of the current items (copies are
identities in this pure embedding). -/
def UserCache.SnapshotUC (uc : UserCache) : List (String × Item) :=
  uc.items

/-- `UserCache.RestoreFromSnapshot(items)`: replace the contents wholesale;
every restored key is pushed to the LRU front in iteration order, so the
final LRU order is the reversed iteration order. -/
def UserCache.RestoreFromSnapshot (uc : UserCache)
    (items : List (String × Item)) : UserCache :=
  { uc with items := items, lru := (items.map (·.1)).reverse }

/-! ## Tenant registry (`internal/cache/cache.go`, `errors.go`) -/

/-- The sentinel errors of `internal/cache/errors.go`. -/
inductive CacheErr where
  | userNotFound
  | keyNotFound
  | userExists
  deriving DecidableEq, Repr

/-- `Cache`: tenant id → per-tenant store. -/
structure Cache where
  users : List (String × UserCache)
  cfg : Config
  deriving DecidableEq, Repr

/-- `NewCache(cfg)`: fall back to `DefaultConfig()` when
`cfg.JanitorInterval == 0`. -/
def NewCache (cfg : Config) : Cache :=
  { users := [], cfg := if cfg.janitorInterval = 0 then DefaultConfig else cfg }

/-- `Cache.getUser`. -/
def Cache.getUser (c : Cache) (userID : String) : Option UserCache :=
  mapGet? c.users userID

/-- `Cache.CreateUser`. -/
def Cache.CreateUser (c : Cache) (userID : String) : Except CacheErr Cache :=
  match mapGet? c.users userID with
  | some _ => .error .userExists
  | none => .ok { c with users := mapSet c.users userID (newUserCache c.cfg) }

/-- `Cache.Set(userID, key, value, ttl)` at instant `now`. -/
def Cache.Set (c : Cache) (userID key : String) (value : List Nat)
    (ttl now : Int) : Except CacheErr Cache :=
  match c.getUser userID with
  | none => .error .userNotFound
  | some uc =>
      .ok { c with users := mapSet c.users userID (uc.set key value ttl now) }

/-- `Cache.Get(userID, key)` at instant `now`: the returned bytes, plus the
updated registry (the read mutates LRU order and may reap an expired item). -/
def Cache.Get (c : Cache) (userID key : String) (now : Int) :
    Except CacheErr (List Nat) × Cache :=
  match c.getUser userID with
  | none => (.error .userNotFound, c)
  | some uc =>
      match uc.get key now with
      | (none, uc') => (.error .keyNotFound,
          { c with users := mapSet c.users userID uc' })
      | (some item, uc') => (.ok item.value,
          { c with users := mapSet c.users userID uc' })

/-- `Cache.Delete(userID, key)`: errors only for an unknown tenant. -/
def Cache.Delete (c : Cache) (userID key : String) : Except CacheErr Cache :=
  match c.getUser userID with
  | none => .error .userNotFound
  | some uc =>
      .ok { c with users := mapSet c.users userID (uc.delete key) }

/-! ## Consistent-hash ring (`internal/cluster`) -/

/-- `cluster.NodeInfo`. -/
structure NodeInfo where
  id : String
  addr : String
  deriving DecidableEq, Repr

/-- UTF-8 encoding of a single code point. -/
def utf8EncodeChar (c : Nat) : List Nat :=
  if c < 128 then [c]
  else if c < 2048 then
    [192 + c / 64, 128 + c % 64]
  else if c < 65536 then
    [224 + c / 4096, 128 + (c / 64) % 64, 128 + c % 64]
  else
    [240 + c / 262144, 128 + (c / 4096) % 64, 128 + (c / 64) % 64, 128 + c % 64]

/-- The UTF-8 bytes of a string (Go's `[]byte(s)`). -/
def strBytes (s : String) : List Nat :=
  (s.data.map (fun ch => utf8EncodeChar ch.toNat)).flatten

/-- 64-bit FNV-1a over a byte sequence: start from the offset basis and,
per byte, XOR then multiply by the FNV prime, mod `2^64`. -/
def fnv1a64 (bytes : List Nat) : Nat :=
  bytes.foldl
    (fun h b => ((h ^^^ b) * 1099511628211) % 18446744073709551616)
    14695981039346656037

/-- Reinterpret an unsigned 64-bit value as Go's `int64`. -/
def toInt64 (n : Nat) : Int :=
  if n < 9223372036854775808 then (n : Int)
  else (n : Int) - 18446744073709551616

/-- `hashStr(s) = int64(fnv.New64a over the UTF-8 bytes of s)`. -/
def hashStr (s : String) : Int :=
  toInt64 (fnv1a64 (strBytes s))

/-- Insert into a sorted list (ascending). -/
def insertSorted (x : Int) : List Int → List Int
  | [] => [x]
  | y :: ys => if x ≤ y then x :: y :: ys else y :: insertSorted x ys

/-- `slices.Sort` on `int64` values: sort ascending. -/
def sortInts : List Int → List Int
  | [] => []
  | x :: xs => insertSorted x (sortInts xs)

/-- `cluster.HashRing`: virtual-position hash → owner, plus the sorted
position list. -/
structure HashRing where
  replicas : Nat
  nodes : List (Int × NodeInfo)
  hashes : List Int
  deriving DecidableEq, Repr

/-- `NewHashRing(replicas)`: non-positive `replicas` falls back to 10. -/
def NewHashRing (replicas : Int) : HashRing :=
  { replicas := if replicas ≤ 0 then 10 else replicas.toNat,
    nodes := [], hashes := [] }

/-- Go map read `hr.nodes[hash]` (zero value when absent). -/
def nodeAt (nodes : List (Int × NodeInfo)) (h : Int) : NodeInfo :=
  (mapGet? nodes h).getD ⟨"", ""⟩

/-- `HashRing.AddNode(node)`: insert `replicas` virtual positions hashed
from `addr#i`, then re-sort the position list. -/
def HashRing.AddNode (hr : HashRing) (node : NodeInfo) : HashRing :=
  let pairs := (List.range hr.replicas).map
    (fun i => hashStr (node.addr ++ "#" ++ toString i))
  { hr with
    nodes := pairs.foldl (fun m h => mapSet m h node) hr.nodes,
    hashes := sortInts (hr.hashes ++ pairs) }

/-- The start index shared by `Lookup` and `GetSuccessorNodes`:
`sort.Search` returns the smallest index whose position is `≥ h` (the
length when there is none), and an out-of-range result wraps to 0. -/
def HashRing.startIdx (hr : HashRing) (h : Int) : Nat :=
  let idx := hr.hashes.findIdx (fun p => h ≤ p)
  if idx = hr.hashes.length then 0 else idx

/-- `HashRing.Lookup(key)`: `none` on an empty ring, else the owner of the
first sorted position `≥ hashStr key`, wrapping to index 0. -/
def HashRing.Lookup (hr : HashRing) (key : String) : Option NodeInfo :=
  if hr.hashes = [] then none
  else
    let idx := hr.startIdx (hashStr key)
    some (nodeAt hr.nodes (hr.hashes.getD idx 0))

/-- The collection loop of `GetSuccessorNodes`: walk the (rotated) owner
sequence, skipping owners whose id was already seen, until `cap` distinct
nodes are gathered or the sequence is exhausted. -/
def collectUniq : Nat → List String → List NodeInfo → List NodeInfo
  | _, _, [] => []
  | cap, seen, n :: rest =>
      if cap = 0 then []
      else if n.id ∈ seen then collectUniq cap seen rest
      else n :: collectUniq (cap - 1) (n.id :: seen) rest

/-- `HashRing.GetSuccessorNodes(key, count)`: positions are visited as
`(idx + i) % len` for `i < len`, i.e. the sorted position list rotated to
the lookup start index; owners are deduplicated by id and capped at
`count`. -/
def HashRing.GetSuccessorNodes (hr : HashRing) (key : String) (count : Nat) :
    List NodeInfo :=
  if hr.hashes = [] ∨ count = 0 then []
  else
    let idx := hr.startIdx (hashStr key)
    collectUniq count [] ((hr.hashes.rotate idx).map (nodeAt hr.nodes))

/-- `cluster.ClusterState`. -/
structure ClusterState where
  nodesMap : List (String × NodeInfo)
  Replicas : Nat
  ring : HashRing
  self : NodeInfo
  deriving DecidableEq, Repr

/-- `NewClusterState(self, replicas)`: membership and ring seeded with
`self`. -/
def NewClusterState (self : NodeInfo) (replicas : Int) : ClusterState :=
  { nodesMap := [(self.id, self)],
    Replicas := (NewHashRing replicas).replicas,
    ring := (NewHashRing replicas).AddNode self,
    self := self }

/-- `ClusterState.AddNode(node)`: no-op when the id is already a member,
else add to the membership map and the ring. -/
def ClusterState.AddNode (cs : ClusterState) (node : NodeInfo) : ClusterState :=
  match mapGet? cs.nodesMap node.id with
  | some _ => cs
  | none =>
      { cs with nodesMap := mapSet cs.nodesMap node.id node,
                ring := cs.ring.AddNode node }

/-- `ClusterState.LookupOwner(key)`: delegates to the ring. -/
def ClusterState.LookupOwner (cs : ClusterState) (key : String) :
    Option NodeInfo :=
  cs.ring.Lookup key

/-- `ClusterState.GetReplicaNodes(key, count)`: delegates to the ring. -/
def ClusterState.GetReplicaNodes (cs : ClusterState) (key : String)
    (count : Nat) : List NodeInfo :=
  cs.ring.GetSuccessorNodes key count

/-! ## HTTP front end (`internal/server`) -/

/-- `replicationTask` from `replication.go`. -/
structure ReplTask where
  dest : NodeInfo
  userID : String
  key : String
  value : List Nat
  ttlSec : Int
  timestamp : Int
  attempts : Nat
  deriving DecidableEq, Repr

/-- `setRequest` (body of `POST /v1/set`). -/
structure setRequest where
  key : String
  value : String
  ttlSecond : Int
  deriving DecidableEq, Repr

/-- The observable conclusion of an HTTP handler: a status code written
locally, or the request forwarded to the owner. -/
inductive HResp where
  | status (code : Nat)
  | forward (owner : NodeInfo)
  deriving DecidableEq, Repr

/-- The server state the KV handlers consult. -/
structure ServerM where
  cache : Cache
  cluster : ClusterState
  httpAddr : String
  deriving Repr

/-- `Server.enqueueReplication(userID, key, value, ttlSec, timestamp)`:
one task per replica node beyond the primary (index 0 skipped), for up to
`cluster.Replicas` nodes returned by the successor walk. -/
def ServerM.enqueueReplication (s : ServerM) (userID key : String)
    (value : List Nat) (ttlSec timestamp : Int) : List ReplTask :=
  let replicas := s.cluster.GetReplicaNodes (userID ++ ":|:" ++ key)
    s.cluster.Replicas
  (replicas.drop 1).map (fun n =>
    { dest := n, userID := userID, key := key, value := value,
      ttlSec := ttlSec, timestamp := timestamp, attempts := 0 })

/-- `Server.handleSet`: header check, owner routing, then a local
`cache.Set` (no tenant auto-creation, no timestamp, and no call to
`enqueueReplication` — the returned task list is always empty). -/
def ServerM.handleSet (s : ServerM) (uid? : Option String) (req : setRequest)
    (now : Int) : HResp × Cache × List ReplTask :=
  match uid? with
  | none => (.status 400, s.cache, [])
  | some uid =>
    if req.key = "" then (.status 400, s.cache, [])
    else
      match s.cluster.LookupOwner (uid ++ ":|:" ++ req.key) with
      | none => (.status 503, s.cache, [])
      | some owner =>
        if owner.addr ≠ s.httpAddr then (.forward owner, s.cache, [])
        else
          let ttl : Int := if req.ttlSecond > 0 then req.ttlSecond * 1000000000 else 0
          match s.cache.Set uid req.key (strBytes req.value) ttl now with
          | .error .userNotFound => (.status 404, s.cache, [])
          | .error _ => (.status 500, s.cache, [])
          | .ok c' => (.status 200, c', [])

/-- `Server.handleDelete`: header check, owner routing, then a local
`cache.Delete`. -/
def ServerM.handleDelete (s : ServerM) (uid? : Option String) (key : String) :
    HResp × Cache :=
  match uid? with
  | none => (.status 400, s.cache)
  | some uid =>
    if key = "" then (.status 400, s.cache)
    else
      match s.cluster.LookupOwner (uid ++ ":|:" ++ key) with
      | none => (.status 503, s.cache)
      | some owner =>
        if owner.addr ≠ s.httpAddr then (.forward owner, s.cache)
        else
          match s.cache.Delete uid key with
          | .error .userNotFound => (.status 404, s.cache)
          | .error _ => (.status 500, s.cache)
          | .ok c' => (.status 200, c')

/-! ## The internal replicate sink, modelled from the spec

`registerHTTPHandlers` registers `s.handleInternalReplicate` on
`/v1/internal/replicate`, but that handler's body (and the
timestamp-carrying store it writes to) is not part of the sources; both
are modelled here from the specification. -/

/-- Modelled from the spec: the `Item` as the specification's data model
describes it, with the LWW `timestamp` write stamp that the sources'
`Item` lacks. -/
structure TSItem where
  value : List Nat
  expiresAt : Option Int
  timestamp : Int
  deriving DecidableEq, Repr

/-- Modelled from the spec: a per-tenant key → timestamped-item map. -/
def TSStore := List (String × TSItem)
  deriving DecidableEq

/-- Modelled from the spec: tenant id → timestamped store. -/
def TSRegistry := List (String × TSStore)
  deriving DecidableEq

/-- Modelled from the spec: `set(key, value, ttl, timestamp)` — if a
resident item exists and its timestamp is strictly greater than the
incoming timestamp the write is dropped, otherwise the item is stored
with the provided timestamp (`expires_at = now + ttl` if `ttl > 0`, else
never). -/
def setLWW (store : TSStore) (key : String) (value : List Nat)
    (ttl now ts : Int) : TSStore :=
  let expires : Option Int := if ttl > 0 then some (now + ttl) else none
  match mapGet? store key with
  | some resident =>
      if resident.timestamp > ts then store
      else mapSet store key ⟨value, expires, ts⟩
  | none => mapSet store key ⟨value, expires, ts⟩

/-- The JSON payload of `/v1/internal/replicate` (`replicatePayload` in
`replication.go`). -/
structure replicatePayload where
  userID : String
  key : String
  value : List Nat
  ttlSecs : Int
  timestamp : Int
  deriving DecidableEq, Repr

/-- Modelled from the spec: `handleInternalReplicate` — ensure the tenant
exists (implicitly creating it), apply the set with the provided
timestamp using the same LWW rule as local writes, answer 200, and
enqueue no further replication tasks. -/
def handleInternalReplicate (reg : TSRegistry) (p : replicatePayload)
    (now : Int) : Nat × TSRegistry × List ReplTask :=
  let store : TSStore :=
    match mapGet? reg p.userID with
    | some st => st
    | none => []
  let store' := setLWW store p.key p.value (p.ttlSecs * 1000000000) now
    p.timestamp
  (200, mapSet reg p.userID store', [])

/-! ## Store well-formedness

The mutex-protected `UserCache` keeps its `items` map and LRU structures
in sync: LRU keys are exactly the map keys and each occurs once. -/

/-- Well-formedness of a `UserCache`: the LRU key list has no duplicates
and is a permutation of the item map's keys. -/
def WF (uc : UserCache) : Prop :=
  uc.lru.Nodup ∧ (mapKeys uc.items).Perm uc.lru

instance : DecidablePred WF := fun _ =>
  inferInstanceAs (Decidable (_ ∧ _))

theorem WF.length_eq {uc : UserCache} (hwf : WF uc) :
    uc.items.length = uc.lru.length := by
  have := hwf.2.length_eq
  rwa [length_mapKeys] at this

theorem WF.mem_lru_iff {uc : UserCache} (hwf : WF uc) (k : String) :
    k ∈ uc.lru ↔ mapGet? uc.items k ≠ none := by
  rw [← hwf.2.mem_iff, mem_mapKeys_iff]

theorem WF.keys_nodup {uc : UserCache} (hwf : WF uc) :
    (mapKeys uc.items).Nodup := hwf.2.symm.nodup hwf.1

theorem nodup_filter_ne_getLast {l : List String} {b : String}
    (hnd : l.Nodup) (hb : l.getLast? = some b) :
    l.filter (fun x => x ≠ b) = l.dropLast := by
  cases hr : l.reverse with
  | nil =>
      have : l = [] := by
        have := congrArg List.reverse hr
        simpa using this
      subst this
      simp at hb
  | cons x t =>
      have hl : l = t.reverse ++ [x] := by
        have := congrArg List.reverse hr
        simpa using this
      subst hl
      have hx : x = b := by
        rw [List.getLast?_concat] at hb
        exact Option.some.inj hb
      subst hx
      have hnotmem : x ∉ t.reverse := by
        intro hmem
        have := (List.nodup_append.mp hnd).2.2
        exact this hmem (by simp)
      rw [List.filter_append, List.dropLast_concat]
      have h1 : t.reverse.filter (fun y => y ≠ x) = t.reverse := by
        apply List.filter_eq_self.mpr
        intro y hy
        simp only [ne_eq, decide_eq_true_eq, decide_not, Bool.not_eq_true']
        rw [decide_eq_false_iff_not]
        intro hxe
        exact hnotmem (hxe ▸ hy)
      simp only [h1, List.filter_cons, List.filter_nil]
      simp

theorem take_one_reverse {l : List String} {b : String}
    (hb : l.getLast? = some b) : l.reverse.take 1 = [b] := by
  cases hr : l.reverse with
  | nil =>
      have : l = [] := by
        have := congrArg List.reverse hr
        simpa using this
      subst this
      simp at hb
  | cons x t =>
      have hl : l = t.reverse ++ [x] := by
        have := congrArg List.reverse hr
        simpa using this
      subst hl
      rw [List.getLast?_concat] at hb
      simp [Option.some.inj hb]

theorem getLast?_cons_some {α : Type} {l : List α} {b : α} (a : α)
    (hb : l.getLast? = some b) : (a :: l).getLast? = some b := by
  cases l with
  | nil => simp at hb
  | cons x t =>
      rw [List.getLast?_cons_cons]
      exact hb

theorem dropLast_cons_ne_nil {α : Type} (a : α) {l : List α} (h : l ≠ []) :
    (a :: l).dropLast = a :: l.dropLast := by
  cases l with
  | nil => exact absurd rfl h
  | cons x t => rfl

theorem mem_of_getLast?_some {α : Type} {l : List α} {b : α}
    (hb : l.getLast? = some b) : b ∈ l := by
  induction l with
  | nil => simp at hb
  | cons x t ih =>
      cases t with
      | nil =>
          simp at hb
          simp [hb]
      | cons y u =>
          rw [List.getLast?_cons_cons] at hb
          exact List.mem_cons_of_mem _ (ih hb)

theorem length_mapSet_absent (m : List (String × Item)) (k : String) (v : Item)
    (h : mapGet? m k = none) : (mapSet m k v).length = m.length + 1 := by
  have := congrArg List.length (mapKeys_mapSet_absent m k v h)
  simpa [length_mapKeys] using this

theorem length_mapSet_present (m : List (String × Item)) (k : String) (v : Item)
    (h : mapGet? m k ≠ none) : (mapSet m k v).length = m.length := by
  have := congrArg List.length (mapKeys_mapSet_present m k v h)
  simpa [length_mapKeys] using this

theorem evictGo_stop (maxE fuel : Nat) (items : List (String × Item))
    (lru acc : List String) (h : items.length ≤ maxE) :
    evictLoop.go maxE fuel items lru acc = (items, lru, acc) := by
  rw [evictLoop.go]
  simp [h]

theorem evictGo_step (maxE fuel : Nat) (items : List (String × Item))
    (lru acc : List String) (back : String) (h : ¬ items.length ≤ maxE)
    (hb : lru.getLast? = some back) :
    evictLoop.go maxE (fuel + 1) items lru acc
      = evictLoop.go maxE fuel (mapErase items back) lru.dropLast
          (acc ++ [back]) := by
  conv_lhs => rw [evictLoop.go]
  simp [h, hb]

/-- Behaviour of `UserCache.set` on a well-formed store within capacity:
well-formedness is preserved, the written key is resident afterwards with
the computed expiry, a finite capacity keeps the item count bounded, and
on insertion of a genuinely new key the evicted keys are exactly those at
the back of the LRU list at the overflow moment. -/
theorem set_spec (uc : UserCache) (key : String) (v : List Nat) (ttl now : Int)
    (hwf : WF uc)
    (hsize : uc.maxEntries = 0 ∨ uc.items.length ≤ uc.maxEntries) :
    WF (uc.set key v ttl now)
    ∧ (uc.set key v ttl now).maxEntries = uc.maxEntries
    ∧ mapGet? (uc.set key v ttl now).items key
        = some ⟨v, if ttl > 0 then some (now + ttl) else none⟩
    ∧ (0 < uc.maxEntries →
        (uc.set key v ttl now).items.length ≤ uc.maxEntries)
    ∧ (mapGet? uc.items key = none → 0 < uc.maxEntries →
        (uc.setWithEvicted key v ttl now).2
          = uc.lru.reverse.take (uc.items.length + 1 - uc.maxEntries)) := by
  set item : Item := ⟨v, if ttl > 0 then some (now + ttl) else none⟩ with hitem
  cases hres : mapGet? uc.items key with
  | some old =>
      -- update-in-place branch
      have hne : mapGet? uc.items key ≠ none := by simp [hres]
      have hmem : key ∈ uc.lru := (hwf.mem_lru_iff key).mpr hne
      have hset : uc.setWithEvicted key v ttl now
          = ({ uc with items := mapSet uc.items key item,
                       lru := moveToFront key uc.lru }, []) := by
        unfold UserCache.setWithEvicted
        rw [hres]
      have hwf' : WF ({ uc with items := mapSet uc.items key item,
                                lru := moveToFront key uc.lru }) := by
        constructor
        · simp only [moveToFront, if_pos hmem]
          exact (List.perm_cons_erase hmem).nodup hwf.1
        · simp only [moveToFront, if_pos hmem]
          rw [mapKeys_mapSet_present _ _ _ hne]
          exact hwf.2.trans (List.perm_cons_erase hmem)
      refine ⟨?_, ?_, ?_, ?_, ?_⟩
      · simp only [UserCache.set, hset]
        exact hwf'
      · simp only [UserCache.set, hset]
      · simp only [UserCache.set, hset]
        exact mapGet?_mapSet_self _ _ _
      · intro hpos
        simp only [UserCache.set, hset]
        have hl : (mapSet uc.items key item).length = uc.items.length :=
          length_mapSet_present _ _ _ hne
        rcases hsize with h0 | hle
        · omega
        · simp only [hl]
          exact hle
      · intro habs
        simp at habs
  | none =>
      -- genuinely new key
      have hnotmem : key ∉ uc.lru := by
        rw [hwf.mem_lru_iff key]
        simp [hres]
      have hlru1 : addToLRU key uc.lru = key :: uc.lru := by
        simp [addToLRU, hnotmem]
      have hlen1 : (mapSet uc.items key item).length = uc.items.length + 1 :=
        length_mapSet_absent _ _ _ hres
      have hkeys1 : mapKeys (mapSet uc.items key item)
          = mapKeys uc.items ++ [key] := mapKeys_mapSet_absent _ _ _ hres
      have hperm1 : (mapKeys (mapSet uc.items key item)).Perm
          (key :: uc.lru) := by
        rw [hkeys1]
        exact (List.perm_append_singleton _ _).trans (hwf.2.cons key)
      have hnd1 : (key :: uc.lru).Nodup :=
        List.nodup_cons.mpr ⟨hnotmem, hwf.1⟩
      have hwf1 : WF ({ uc with items := mapSet uc.items key item,
                                lru := key :: uc.lru }) :=
        ⟨hnd1, hperm1⟩
      by_cases hmax : 0 < uc.maxEntries
      · -- finite capacity: the eviction loop runs
        have hsz : uc.items.length ≤ uc.maxEntries := by
          rcases hsize with h0 | hle
          · omega
          · exact hle
        have hset : uc.setWithEvicted key v ttl now
            = ({ uc with
                  items := (evictLoop uc.maxEntries
                    (mapSet uc.items key item) (key :: uc.lru) []).1,
                  lru := (evictLoop uc.maxEntries
                    (mapSet uc.items key item) (key :: uc.lru) []).2.1 },
               (evictLoop uc.maxEntries
                    (mapSet uc.items key item) (key :: uc.lru) []).2.2) := by
          unfold UserCache.setWithEvicted
          rw [hres]
          simp only [hlru1]
          rw [if_pos hmax]
        by_cases hfull : uc.items.length + 1 ≤ uc.maxEntries
        · -- no overflow: the loop exits immediately
          have hloop : evictLoop uc.maxEntries (mapSet uc.items key item)
              (key :: uc.lru) []
              = (mapSet uc.items key item, key :: uc.lru, []) := by
            unfold evictLoop
            exact evictGo_stop _ _ _ _ _ (by omega)
          refine ⟨?_, ?_, ?_, ?_, ?_⟩
          · simp only [UserCache.set, hset, hloop]
            exact hwf1
          · simp only [UserCache.set, hset, hloop]
          · simp only [UserCache.set, hset, hloop]
            exact mapGet?_mapSet_self _ _ _
          · intro _
            simp only [UserCache.set, hset, hloop]
            rw [hlen1]
            omega
          · intro _ _
            simp only [hset, hloop]
            rw [show uc.items.length + 1 - uc.maxEntries = 0 by omega]
            simp
        · -- overflow: exactly one key is evicted, the LRU back
          have hfull' : uc.items.length = uc.maxEntries := by omega
          have hlrupos : uc.lru ≠ [] := by
            intro hnil
            have hq := hwf.length_eq
            rw [hnil, List.length_nil] at hq
            omega
          obtain ⟨back, hback⟩ : ∃ b, uc.lru.getLast? = some b := by
            cases hl : uc.lru.getLast? with
            | none => exact absurd (List.getLast?_eq_none_iff.mp hl) hlrupos
            | some b => exact ⟨b, rfl⟩
          have hback1 : (key :: uc.lru).getLast? = some back :=
            getLast?_cons_some key hback
          have hbackmem : back ∈ uc.lru := mem_of_getLast?_some hback
          have hbackkeys : mapGet? uc.items back ≠ none :=
            (hwf.mem_lru_iff back).mp hbackmem
          have hbackne : back ≠ key := by
            intro h
            rw [h] at hbackkeys
            exact hbackkeys hres
          have hkb : key ≠ back := fun h => hbackne h.symm
          have hkeys2 : mapKeys (mapErase (mapSet uc.items key item) back)
              = (mapKeys (mapSet uc.items key item)).filter
                  (fun x => x ≠ back) :=
            mapKeys_mapErase _ _
          have e2 : (key :: uc.lru).filter (fun x => x ≠ back)
              = key :: uc.lru.dropLast := by
            have hcons : (key :: uc.lru).filter (fun x => x ≠ back)
                = key :: uc.lru.filter (fun x => x ≠ back) := by
              rw [List.filter_cons, if_pos (by simpa using hkb)]
            rw [hcons, nodup_filter_ne_getLast hwf.1 hback]
          have hfilter : ((mapKeys (mapSet uc.items key item)).filter
              (fun x => x ≠ back)).Perm (key :: uc.lru.dropLast) := by
            rw [← e2]
            exact hperm1.filter _
          have hlen2 : (mapErase (mapSet uc.items key item) back).length
              = uc.maxEntries := by
            have h1 := congrArg List.length hkeys2
            rw [length_mapKeys] at h1
            have h2 := hfilter.length_eq
            have h3 : (key :: uc.lru.dropLast).length = uc.lru.length := by
              have hp : 0 < uc.lru.length := List.length_pos.mpr hlrupos
              simp only [List.length_cons, List.length_dropLast]
              omega
            have h4 : uc.lru.length = uc.maxEntries := by
              have hq := hwf.length_eq
              omega
            omega
          have hdrop1 : (key :: uc.lru).dropLast = key :: uc.lru.dropLast :=
            dropLast_cons_ne_nil key hlrupos
          have hloop : evictLoop uc.maxEntries (mapSet uc.items key item)
              (key :: uc.lru) []
              = (mapErase (mapSet uc.items key item) back,
                 key :: uc.lru.dropLast, [back]) := by
            unfold evictLoop
            have hfuel : (key :: uc.lru).length = uc.maxEntries + 1 := by
              have hq := hwf.length_eq
              simp only [List.length_cons]
              omega
            rw [hfuel]
            rw [evictGo_step _ _ _ _ _ back (by omega) hback1]
            rw [hdrop1]
            have := evictGo_stop uc.maxEntries uc.maxEntries
              (mapErase (mapSet uc.items key item) back)
              (key :: uc.lru.dropLast) ([] ++ [back]) (by omega)
            simpa using this
          refine ⟨?_, ?_, ?_, ?_, ?_⟩
          · simp only [UserCache.set, hset, hloop]
            constructor
            · have hsub : (key :: uc.lru.dropLast).Sublist (key :: uc.lru) :=
                (List.dropLast_sublist uc.lru).cons₂ key
              exact hsub.nodup hnd1
            · rw [hkeys2]
              exact hfilter
          · simp only [UserCache.set, hset, hloop]
          · simp only [UserCache.set, hset, hloop]
            rw [mapGet?_mapErase_ne _ _ _ hkb]
            exact mapGet?_mapSet_self _ _ _
          · intro _
            simp only [UserCache.set, hset, hloop]
            omega
          · intro _ _
            simp only [hset, hloop]
            rw [show uc.items.length + 1 - uc.maxEntries = 1 by omega]
            exact (take_one_reverse hback).symm
      · -- unlimited capacity: no eviction loop
        have hmax0 : uc.maxEntries = 0 := by omega
        have hset : uc.setWithEvicted key v ttl now
            = ({ uc with items := mapSet uc.items key item,
                         lru := key :: uc.lru }, []) := by
          unfold UserCache.setWithEvicted
          rw [hres]
          simp [hmax0, hlru1]
        refine ⟨?_, ?_, ?_, ?_, ?_⟩
        · simp only [UserCache.set, hset]
          exact hwf1
        · simp only [UserCache.set, hset]
        · simp only [UserCache.set, hset]
          exact mapGet?_mapSet_self _ _ _
        · intro hpos
          omega
        · intro _ hpos
          omega

/-- Removing a key (map entry plus LRU entry) preserves well-formedness
and does not increase the item count. -/
theorem erase_both_spec (uc : UserCache) (key : String) (hwf : WF uc) :
    WF ({ uc with items := mapErase uc.items key,
                  lru := removeFromLRU key uc.lru })
    ∧ (mapErase uc.items key).length ≤ uc.items.length := by
  have herase : uc.lru.erase key = uc.lru.filter (fun x => x ≠ key) := by
    rw [hwf.1.erase_eq_filter key]
    apply List.filter_congr
    intro x _
    by_cases h : x = key <;> simp [h]
  constructor
  · constructor
    · exact hwf.1.erase key
    · show (mapKeys (mapErase uc.items key)).Perm (uc.lru.erase key)
      rw [mapKeys_mapErase, herase]
      exact hwf.2.filter _
  · have h1 := congrArg List.length (mapKeys_mapErase uc.items key)
    rw [length_mapKeys] at h1
    have h2 : ((mapKeys uc.items).filter (fun x => x ≠ key)).length
        ≤ (mapKeys uc.items).length := List.length_filter_le _ _
    rw [length_mapKeys] at h2
    omega

/-- Behaviour of `UserCache.get` on a well-formed store: well-formedness
is preserved and the item count never grows. -/
theorem get_spec (uc : UserCache) (key : String) (now : Int) (hwf : WF uc) :
    WF (uc.get key now).2
    ∧ (uc.get key now).2.maxEntries = uc.maxEntries
    ∧ (uc.get key now).2.items.length ≤ uc.items.length := by
  cases hres : mapGet? uc.items key with
  | none =>
      have hg : uc.get key now = (none, uc) := by
        simp only [UserCache.get, hres]
      rw [hg]
      exact ⟨hwf, rfl, le_refl _⟩
  | some item =>
      by_cases hexp : item.isExpired now = true
      · have hg : uc.get key now
            = (none, { uc with items := mapErase uc.items key,
                               lru := removeFromLRU key uc.lru }) := by
          simp only [UserCache.get, hres]
          rw [if_pos hexp]
        rw [hg]
        have := erase_both_spec uc key hwf
        exact ⟨this.1, rfl, this.2⟩
      · have hg : uc.get key now
            = (some item, { uc with lru := moveToFront key uc.lru }) := by
          simp only [UserCache.get, hres]
          rw [if_neg hexp]
        rw [hg]
        have hne : mapGet? uc.items key ≠ none := by simp [hres]
        have hmem : key ∈ uc.lru := (hwf.mem_lru_iff key).mpr hne
        refine ⟨⟨?_, ?_⟩, rfl, le_refl _⟩
        · simp only [moveToFront, if_pos hmem]
          exact (List.perm_cons_erase hmem).nodup hwf.1
        · simp only [moveToFront, if_pos hmem]
          exact hwf.2.trans (List.perm_cons_erase hmem)

/-- Behaviour of `UserCache.delete` on a well-formed store: always
succeeds, preserves well-formedness, and never grows the store. -/
theorem delete_spec (uc : UserCache) (key : String) (hwf : WF uc) :
    WF (uc.delete key)
    ∧ (uc.delete key).maxEntries = uc.maxEntries
    ∧ (uc.delete key).items.length ≤ uc.items.length := by
  have := erase_both_spec uc key hwf
  exact ⟨this.1, rfl, this.2⟩

/-- The per-tenant operations a client can drive through the registry. -/
inductive CacheOp where
  | setOp (key : String) (value : List Nat) (ttl now : Int)
  | getOp (key : String) (now : Int)
  | delOp (key : String)

/-- Apply one operation to a tenant store. -/
def applyOp (uc : UserCache) : CacheOp → UserCache
  | .setOp k v ttl now => uc.set k v ttl now
  | .getOp k now => (uc.get k now).2
  | .delOp k => uc.delete k

/-- Apply a sequence of operations to a tenant store. -/
def applyOps (uc : UserCache) (ops : List CacheOp) : UserCache :=
  ops.foldl applyOp uc

/-- The capacity invariant is inductive: any sequence of set/get/delete
operations keeps a bounded well-formed store bounded and well-formed. -/
theorem applyOps_bounded (ops : List CacheOp) (uc : UserCache)
    (hwf : WF uc) (hC : 0 < uc.maxEntries)
    (hsize : uc.items.length ≤ uc.maxEntries) :
    WF (applyOps uc ops)
    ∧ (applyOps uc ops).maxEntries = uc.maxEntries
    ∧ (applyOps uc ops).items.length ≤ uc.maxEntries := by
  induction ops generalizing uc with
  | nil => exact ⟨hwf, rfl, hsize⟩
  | cons op rest ih =>
      have hstep : WF (applyOp uc op)
          ∧ (applyOp uc op).maxEntries = uc.maxEntries
          ∧ (applyOp uc op).items.length ≤ uc.maxEntries := by
        cases op with
        | setOp k v ttl now =>
            have := set_spec uc k v ttl now hwf (Or.inr hsize)
            exact ⟨this.1, this.2.1, this.2.2.2.1 hC⟩
        | getOp k now =>
            have := get_spec uc k now hwf
            exact ⟨this.1, this.2.1, le_trans this.2.2 hsize⟩
        | delOp k =>
            have := delete_spec uc k hwf
            exact ⟨this.1, this.2.1, le_trans this.2.2 hsize⟩
      have hmax : (applyOp uc op).maxEntries = uc.maxEntries := hstep.2.1
      have := ih (applyOp uc op) hstep.1 (hmax ▸ hC) (hmax ▸ hstep.2.2)
      exact ⟨this.1, hmax ▸ this.2.1, hmax ▸ this.2.2⟩

theorem mapErase_absent {κ α : Type} [DecidableEq κ] (m : List (κ × α)) (k : κ)
    (h : mapGet? m k = none) : mapErase m k = m := by
  induction m with
  | nil => rfl
  | cons hd tl ih =>
      obtain ⟨k₀, v₀⟩ := hd
      by_cases hk : k₀ = k
      · subst hk
        simp [mapGet?] at h
      · simp only [mapGet?_cons, if_neg hk] at h
        simp [mapErase, hk, ih h]

theorem mapSet_mapSet_self {κ α : Type} [DecidableEq κ] (m : List (κ × α))
    (k : κ) (v w : α) : mapSet (mapSet m k v) k w = mapSet m k w := by
  induction m with
  | nil => simp [mapSet]
  | cons hd tl ih =>
      obtain ⟨k₀, v₀⟩ := hd
      by_cases hk : k₀ = k
      · subst hk
        simp [mapSet]
      · simp [mapSet, hk, ih]

/-! ## Claim theorems -/

/-- C1: the claim says a set whose timestamp is strictly older than the
resident item's timestamp must not overwrite it.  The sources' `Item`
(`user_cache.go` lines 10–13) has no timestamp field and `UserCache.set`
(lines 102–143) performs no LWW comparison: evaluating the code on a
store holding `"old"` (which arrived carrying replication timestamp 100)
and then setting `"older"` (carrying the strictly older timestamp 50)
shows the older write replacing the resident value unconditionally,
contradicting the repository's own README (timestamp-based last-writer-wins
conflict resolution). -/
theorem c1_set_overwrites_regardless_of_timestamp :
    mapGet? (((newUserCache DefaultConfig).set "k" (strBytes "old") 0 100).set
        "k" (strBytes "older") 0 50).items "k"
      = some ⟨strBytes "older", none⟩
    ∧ strBytes "older" ≠ strBytes "old" := by
  decide

/-- C2: the claim says `handleSet` at the owning node ensures the tenant
exists (implicit create), assigns a wall-clock nanosecond timestamp, and
enqueues one replication task per successor beyond the primary.  The
sources' `handleSet` does none of this: on a single-node cluster that owns
every key it answers 404 for an absent tenant (no implicit create) and
enqueues nothing even on success (it never calls `enqueueReplication`, and
`Cache.Set` accepts no timestamp). -/
theorem c2_handleSet_no_autocreate_no_replication :
    (((ServerM.mk (NewCache ⟨1, 0, 2, "d"⟩) (NewClusterState ⟨"a", "addr"⟩ 1)
        "addr").handleSet (some "u") ⟨"k", "v", 0⟩ 12345).1 = .status 404
      ∧ ((ServerM.mk (NewCache ⟨1, 0, 2, "d"⟩) (NewClusterState ⟨"a", "addr"⟩ 1)
        "addr").handleSet (some "u") ⟨"k", "v", 0⟩ 12345).2.2 = [])
    ∧ (((ServerM.mk (Cache.mk [("u", newUserCache ⟨1, 0, 2, "d"⟩)] ⟨1, 0, 2, "d"⟩)
          (NewClusterState ⟨"a", "addr"⟩ 1) "addr").handleSet (some "u")
          ⟨"k", "v", 0⟩ 12345).1 = .status 200
      ∧ ((ServerM.mk (Cache.mk [("u", newUserCache ⟨1, 0, 2, "d"⟩)] ⟨1, 0, 2, "d"⟩)
          (NewClusterState ⟨"a", "addr"⟩ 1) "addr").handleSet (some "u")
          ⟨"k", "v", 0⟩ 12345).2.2 = []) := by
  decide

/-- C4 (counterexample): the claim says a get at exactly `t1 = t0 + ttl`
returns NotFound, but `Item.isExpired` uses the strict `now.After`, so at
the boundary instant the value is still returned (here `t0 = 0`,
`ttl = 5`, `t1 = 5`). -/
theorem c4_boundary_counterexample :
    ((((newUserCache DefaultConfig).set "k" (strBytes "v") 5 0).get "k" 5).1
        = some ⟨strBytes "v", some 5⟩)
    ∧ ((((newUserCache DefaultConfig).set "k" (strBytes "v") 5 0).get "k" 5).1
        ≠ none) := by
  decide

/-- C4 (amended): after `set(k, v, ttl>0)` at `t0` in a well-formed store
within capacity, a get at `t1` returns the value while `t1 ≤ t0 + ttl`
and NotFound when `t1 > t0 + ttl` (strict boundary); an expired read also
removes the item from the store. -/
theorem c4_ttl_expiry_amended (uc : UserCache) (key : String) (v : List Nat)
    (ttl t0 t1 : Int) (hwf : WF uc)
    (hsize : uc.maxEntries = 0 ∨ uc.items.length ≤ uc.maxEntries)
    (httl : 0 < ttl) :
    (t1 ≤ t0 + ttl →
      ((uc.set key v ttl t0).get key t1).1 = some ⟨v, some (t0 + ttl)⟩)
    ∧ (t0 + ttl < t1 →
      ((uc.set key v ttl t0).get key t1).1 = none
      ∧ mapGet? (((uc.set key v ttl t0).get key t1).2).items key = none) := by
  have hres : mapGet? (uc.set key v ttl t0).items key
      = some ⟨v, some (t0 + ttl)⟩ := by
    have h := (set_spec uc key v ttl t0 hwf hsize).2.2.1
    rw [if_pos httl] at h
    exact h
  constructor
  · intro hle
    have hnotexp : Item.isExpired ⟨v, some (t0 + ttl)⟩ t1 = false := by
      simp [Item.isExpired]
      omega
    have hg : (uc.set key v ttl t0).get key t1
        = (some ⟨v, some (t0 + ttl)⟩,
           { (uc.set key v ttl t0) with
              lru := moveToFront key (uc.set key v ttl t0).lru }) := by
      simp only [UserCache.get, hres]
      rw [if_neg (by simp [hnotexp])]
    rw [hg]
  · intro hlt
    have hexp : Item.isExpired ⟨v, some (t0 + ttl)⟩ t1 = true := by
      simp [Item.isExpired]
      omega
    have hg : (uc.set key v ttl t0).get key t1
        = (none,
           { (uc.set key v ttl t0) with
              items := mapErase (uc.set key v ttl t0).items key,
              lru := removeFromLRU key (uc.set key v ttl t0).lru }) := by
      simp only [UserCache.get, hres]
      rw [if_pos hexp]
    rw [hg]
    exact ⟨rfl, mapGet?_mapErase_self _ _⟩

/-- C4 witness: the amended TTL behaviour at concrete inputs
(`ttl = 5`, `t0 = 0`; a live read at `t1 = 3` and an expired read at
`t1 = 7`). -/
theorem c4_ttl_expiry_amended_witness :
    ((((newUserCache DefaultConfig).set "k" [1] 5 0).get "k" 3).1
        = some ⟨[1], some 5⟩)
    ∧ ((((newUserCache DefaultConfig).set "k" [1] 5 0).get "k" 7).1 = none) := by
  constructor
  · exact (c4_ttl_expiry_amended (newUserCache DefaultConfig) "k" [1] 5 0 3
      (by decide) (by decide) (by decide)).1 (by decide)
  · exact ((c4_ttl_expiry_amended (newUserCache DefaultConfig) "k" [1] 5 0 7
      (by decide) (by decide) (by decide)).2 (by decide)).1

/-- C5: for a store with finite capacity `C > 0`, any sequence of
set/get/delete operations keeps the item count at most `C` (with
well-formedness preserved), and on insertion of a genuinely new key the
evicted keys are exactly those at the back of the LRU list at that
overflow moment. -/
theorem c5_lru_capacity (uc : UserCache) (ops : List CacheOp) (C : Nat)
    (hC : 0 < C) (hcfg : uc.maxEntries = C) (hwf : WF uc)
    (hsize : uc.items.length ≤ C) :
    (applyOps uc ops).items.length ≤ C
    ∧ WF (applyOps uc ops)
    ∧ (∀ key v ttl now, mapGet? uc.items key = none →
        (uc.setWithEvicted key v ttl now).2
          = uc.lru.reverse.take (uc.items.length + 1 - C)) := by
  subst hcfg
  refine ⟨?_, ?_, ?_⟩
  · exact (applyOps_bounded ops uc hwf hC hsize).2.2
  · exact (applyOps_bounded ops uc hwf hC hsize).1
  · intro key v ttl now habs
    exact (set_spec uc key v ttl now hwf (Or.inr hsize)).2.2.2.2 habs hC

/-- C5 witness: capacity 1, two inserted keys — the store stays at one
item, and the pending insertion of a third fresh key would evict exactly
the LRU back. -/
theorem c5_lru_capacity_witness :
    (applyOps (newUserCache ⟨1, 0, 1, "d"⟩)
        [.setOp "k1" [1] 0 0, .setOp "k2" [2] 0 0]).items.length ≤ 1
    ∧ WF (applyOps (newUserCache ⟨1, 0, 1, "d"⟩)
        [.setOp "k1" [1] 0 0, .setOp "k2" [2] 0 0])
    ∧ ((newUserCache ⟨1, 0, 1, "d"⟩).setWithEvicted "k9" [3] 0 0).2
        = (newUserCache ⟨1, 0, 1, "d"⟩).lru.reverse.take
            ((newUserCache ⟨1, 0, 1, "d"⟩).items.length + 1 - 1) := by
  have h := c5_lru_capacity (newUserCache ⟨1, 0, 1, "d"⟩)
    [.setOp "k1" [1] 0 0, .setOp "k2" [2] 0 0] 1
    (by decide) (by decide) (by decide) (by decide)
  exact ⟨h.1, h.2.1, h.2.2 "k9" [3] 0 0 (by decide)⟩

/-- C10: deleting a key succeeds whenever the tenant exists, regardless of
the key's presence; `Cache.Delete` errors only with `userNotFound` for an
unknown tenant; delete is idempotent and leaves other keys untouched; and
the HTTP delete handler at the owning node answers 200 even for an absent
key. -/
theorem c10_delete_semantics (c : Cache) (uid key : String) (uc : UserCache)
    (h : mapGet? c.users uid = some uc) (hnd : uc.lru.Nodup) :
    Cache.Delete c uid key
      = .ok { c with users := mapSet c.users uid (uc.delete key) }
    ∧ Cache.Delete { c with users := mapSet c.users uid (uc.delete key) }
        uid key
      = .ok { c with users := mapSet c.users uid (uc.delete key) }
    ∧ (∀ k', k' ≠ key →
        mapGet? (uc.delete key).items k' = mapGet? uc.items k')
    ∧ (∀ uid', mapGet? c.users uid' = none →
        Cache.Delete c uid' key = .error .userNotFound)
    ∧ (∀ cs : ClusterState, ∀ saddr : String, ∀ owner : NodeInfo,
        key ≠ "" → cs.LookupOwner (uid ++ ":|:" ++ key) = some owner →
        owner.addr = saddr →
        ((ServerM.mk c cs saddr).handleDelete (some uid) key).1
          = .status 200) := by
  have hdel1 : Cache.Delete c uid key
      = .ok { c with users := mapSet c.users uid (uc.delete key) } := by
    unfold Cache.Delete Cache.getUser
    rw [h]
  refine ⟨hdel1, ?_, ?_, ?_, ?_⟩
  · -- idempotence: the second delete hits the already-deleted store
    have hidem : (uc.delete key).delete key = uc.delete key := by
      unfold UserCache.delete removeFromLRU
      have hitems : mapErase (mapErase uc.items key) key
          = mapErase uc.items key :=
        mapErase_absent _ _ (mapGet?_mapErase_self _ _)
      have hlru : (uc.lru.erase key).erase key = uc.lru.erase key :=
        List.erase_of_not_mem (hnd.not_mem_erase)
      simp [hitems, hlru]
    unfold Cache.Delete Cache.getUser
    rw [show mapGet? (mapSet c.users uid (uc.delete key)) uid
        = some (uc.delete key) from mapGet?_mapSet_self _ _ _]
    simp only [hidem, mapSet_mapSet_self]
  · intro k' hk'
    unfold UserCache.delete
    exact mapGet?_mapErase_ne _ _ _ hk'
  · intro uid' habs
    unfold Cache.Delete Cache.getUser
    rw [habs]
  · intro cs saddr owner hkey howner haddr
    simp only [ServerM.handleDelete, howner, hdel1]
    rw [if_neg hkey]
    rw [if_neg (show ¬ owner.addr ≠ saddr by simp [haddr])]

/-- C10 witness: a single-node cluster, a tenant `"u"` with no keys — the
delete of the absent key `"k"` succeeds, is idempotent, and the handler
answers 200. -/
theorem c10_delete_semantics_witness :
    Cache.Delete (Cache.mk [("u", newUserCache ⟨1, 0, 2, "d"⟩)] ⟨1, 0, 2, "d"⟩)
        "u" "k"
      = .ok { Cache.mk [("u", newUserCache ⟨1, 0, 2, "d"⟩)] ⟨1, 0, 2, "d"⟩ with
          users := mapSet [("u", newUserCache ⟨1, 0, 2, "d"⟩)] "u"
            ((newUserCache ⟨1, 0, 2, "d"⟩).delete "k") }
    ∧ ((ServerM.mk
        (Cache.mk [("u", newUserCache ⟨1, 0, 2, "d"⟩)] ⟨1, 0, 2, "d"⟩)
        (NewClusterState ⟨"a", "addr"⟩ 1) "addr").handleDelete (some "u")
        "k").1 = .status 200 := by
  have h := c10_delete_semantics
    (Cache.mk [("u", newUserCache ⟨1, 0, 2, "d"⟩)] ⟨1, 0, 2, "d"⟩)
    "u" "k" (newUserCache ⟨1, 0, 2, "d"⟩) (by decide) (by decide)
  refine ⟨h.1, ?_⟩
  exact h.2.2.2.2 (NewClusterState ⟨"a", "addr"⟩ 1) "addr" ⟨"a", "addr"⟩
    (by decide) (by decide) (by decide)

/-- C3: the internal replicate sink (modelled from the spec, its body
being absent from the sources) creates the tenant when missing, applies
the set with the provided timestamp under the LWW rule (a strictly newer
resident survives, otherwise the incoming write lands with its
timestamp), answers 200, and enqueues no further replication tasks. -/
theorem c3_internal_replicate_sink (reg : TSRegistry) (p : replicatePayload)
    (now : Int) :
    (handleInternalReplicate reg p now).1 = 200
    ∧ (handleInternalReplicate reg p now).2.2 = []
    ∧ (mapGet? (handleInternalReplicate reg p now).2.1 p.userID ≠ none)
    ∧ (mapGet? reg p.userID = none →
        mapGet? (handleInternalReplicate reg p now).2.1 p.userID
          = some (mapSet ([] : TSStore) p.key
              ⟨p.value,
               if p.ttlSecs * 1000000000 > 0
                 then some (now + p.ttlSecs * 1000000000) else none,
               p.timestamp⟩))
    ∧ (∀ st resident, mapGet? reg p.userID = some st →
        mapGet? st p.key = some resident →
        (resident.timestamp > p.timestamp →
          mapGet? (handleInternalReplicate reg p now).2.1 p.userID = some st)
        ∧ (resident.timestamp ≤ p.timestamp →
          mapGet? (handleInternalReplicate reg p now).2.1 p.userID
            = some (mapSet st p.key
                ⟨p.value,
                 if p.ttlSecs * 1000000000 > 0
                   then some (now + p.ttlSecs * 1000000000) else none,
                 p.timestamp⟩))) := by
  refine ⟨rfl, rfl, ?_, ?_, ?_⟩
  · unfold handleInternalReplicate
    rw [mapGet?_mapSet_self]
    simp
  · intro habs
    simp only [handleInternalReplicate, habs, mapGet?_mapSet_self, setLWW,
      mapGet?_nil]
  · intro st resident hst hres
    constructor
    · intro hnewer
      simp only [handleInternalReplicate, hst, mapGet?_mapSet_self, setLWW,
        hres]
      simp [hnewer]
    · intro holder
      simp only [handleInternalReplicate, hst, mapGet?_mapSet_self, setLWW,
        hres]
      simp [show ¬ resident.timestamp > p.timestamp by omega]

/-- C3 witness: a concrete registry without the tenant, and one with a
newer resident item that survives an older replicated write. -/
theorem c3_internal_replicate_sink_witness :
    (handleInternalReplicate [] ⟨"u", "k", [7], 0, 50⟩ 0).1 = 200
    ∧ (handleInternalReplicate [] ⟨"u", "k", [7], 0, 50⟩ 0).2.2 = []
    ∧ mapGet? (handleInternalReplicate
        [("u", [("k", ⟨[1], none, 100⟩)] )] ⟨"u", "k", [7], 0, 50⟩ 0).2.1 "u"
      = some [("k", ⟨[1], none, 100⟩)] := by
  refine ⟨(c3_internal_replicate_sink [] ⟨"u", "k", [7], 0, 50⟩ 0).1,
    (c3_internal_replicate_sink [] ⟨"u", "k", [7], 0, 50⟩ 0).2.1, ?_⟩
  exact ((c3_internal_replicate_sink [("u", [("k", ⟨[1], none, 100⟩)])]
      ⟨"u", "k", [7], 0, 50⟩ 0).2.2.2.2 [("k", ⟨[1], none, 100⟩)]
      ⟨[1], none, 100⟩ (by decide) (by decide)).1 (by decide)

/-- `PersistedItem` from `cache.go`: one key/value + expiry in a snapshot. -/
structure PersistedItem where
  key : String
  value : List Nat
  expiresAt : Option Int
  deriving DecidableEq, Repr

/-- `UserSnapshot` from `cache.go`. -/
structure UserSnapshot where
  userID : String
  items : List PersistedItem
  deriving DecidableEq, Repr

/-- `Cache.SnapshotUser(userID)`: a serialisable copy of the tenant's
items (all of them, expired entries included). -/
def Cache.SnapshotUser (c : Cache) (userID : String) :
    Except CacheErr UserSnapshot :=
  match c.getUser userID with
  | none => .error .userNotFound
  | some uc =>
      .ok { userID := userID,
            items := uc.SnapshotUC.map
              (fun kv => ⟨kv.1, kv.2.value, kv.2.expiresAt⟩) }

/-- The expiry test `!item.ExpiresAt.IsZero() && now.After(item.ExpiresAt)`
inlined in `Cache.RestoreUserFromSnapshot`. -/
def persistedExpired (p : PersistedItem) (now : Int) : Bool :=
  match p.expiresAt with
  | none => false
  | some e => now > e

/-- `Cache.RestoreUserFromSnapshot(snap)` at instant `now`: ensure the
tenant exists (creating it when missing), keep exactly the snapshot
entries not yet expired, rebuild the key → item map from them, and
replace the tenant store's contents wholesale. -/
def Cache.RestoreUserFromSnapshot (c : Cache) (snap : UserSnapshot)
    (now : Int) : Cache :=
  let c1 : Cache :=
    match mapGet? c.users snap.userID with
    | some _ => c
    | none =>
        { c with users := mapSet c.users snap.userID (newUserCache c.cfg) }
  let uc : UserCache :=
    match mapGet? c.users snap.userID with
    | some uc => uc
    | none => newUserCache c.cfg
  let kept := snap.items.filter (fun p => !(persistedExpired p now))
  let items : List (String × Item) :=
    kept.foldl (fun m p => mapSet m p.key ⟨p.value, p.expiresAt⟩) []
  { c1 with users :=
      mapSet c1.users snap.userID (uc.RestoreFromSnapshot items) }

/-- The linear-walk reading of ring lookup: the owner of the first sorted
position `≥ hashStr key`, wrapping to the first position when no position
is that large; `none` on an empty ring. -/
def linearWalkOwner (hr : HashRing) (key : String) : Option NodeInfo :=
  if hr.hashes = [] then none
  else
    match hr.hashes.find? (fun p => hashStr key ≤ p) with
    | some p => some (nodeAt hr.nodes p)
    | none => some (nodeAt hr.nodes (hr.hashes.headD 0))

/-- The uncapped unique-owner walk: every owner whose id was not yet seen,
in walk order. -/
def uniqNodes (seen : List String) : List NodeInfo → List NodeInfo
  | [] => []
  | n :: rest =>
      if n.id ∈ seen then uniqNodes seen rest
      else n :: uniqNodes (n.id :: seen) rest

/-- The distinct member ids owning positions on the ring. -/
def ringIds (hr : HashRing) : List String :=
  ((hr.hashes.map (nodeAt hr.nodes)).map (·.id)).dedup

theorem findIdx_find?_spec (l : List Int) (p : Int → Bool) :
    (l.find? p = none → l.findIdx p = l.length)
    ∧ (∀ q, l.find? p = some q →
        l.findIdx p < l.length ∧ l.getD (l.findIdx p) 0 = q) := by
  induction l with
  | nil =>
      refine ⟨fun _ => rfl, fun q hq => by simp at hq⟩
  | cons x xs ih =>
      by_cases hx : p x
      · constructor
        · intro hnone
          rw [List.find?_cons_of_pos _ hx] at hnone
          exact absurd hnone (by simp)
        · intro q hq
          rw [List.find?_cons_of_pos _ hx] at hq
          have hxq : x = q := Option.some.inj hq
          subst hxq
          constructor
          · rw [List.findIdx_cons]
            simp [hx]
          · rw [List.findIdx_cons]
            simp [hx]
      · constructor
        · intro hnone
          rw [List.find?_cons_of_neg _ hx] at hnone
          rw [List.findIdx_cons]
          simp [hx, ih.1 hnone]
        · intro q hq
          rw [List.find?_cons_of_neg _ hx] at hq
          have h := ih.2 q hq
          rw [List.findIdx_cons]
          simp only [hx, cond_false]
          refine ⟨by simp only [List.length_cons]; omega, ?_⟩
          simpa using h.2

/-- C6: ring lookup is `none` on an empty ring, and otherwise returns the
owner of the first sorted position at or after the 64-bit FNV-1a hash of
the key, wrapping to index 0 — i.e. it agrees with the linear walk of the
sorted positions. -/
theorem c6_lookup_linear_walk (hr : HashRing) (key : String) :
    (hr.hashes = [] → hr.Lookup key = none)
    ∧ hr.Lookup key = linearWalkOwner hr key := by
  by_cases hnil : hr.hashes = []
  · constructor
    · intro _
      simp [HashRing.Lookup, hnil]
    · simp [HashRing.Lookup, linearWalkOwner, hnil]
  · refine ⟨fun h => absurd h hnil, ?_⟩
    have hlen : 0 < hr.hashes.length := List.length_pos.mpr hnil
    simp only [HashRing.Lookup, linearWalkOwner, HashRing.startIdx,
      if_neg hnil]
    cases hfind : hr.hashes.find? (fun p => hashStr key ≤ p) with
    | none =>
        have hidx := (findIdx_find?_spec hr.hashes _).1 hfind
        rw [hidx]
        rw [if_pos rfl]
        have hhead : hr.hashes.getD 0 0 = hr.hashes.headD 0 := by
          cases hr.hashes with
          | nil => rfl
          | cons a l => rfl
        rw [hhead]
    | some q =>
        have hidx := (findIdx_find?_spec hr.hashes _).2 q hfind
        rw [if_neg (by omega)]
        rw [hidx.2]

/-- C6 witness: a concrete empty ring and a concrete one-node ring. -/
theorem c6_lookup_linear_walk_witness :
    (NewHashRing 1).Lookup "k" = none
    ∧ ((NewHashRing 1).AddNode ⟨"a", "x"⟩).Lookup "k"
        = linearWalkOwner ((NewHashRing 1).AddNode ⟨"a", "x"⟩) "k" := by
  constructor
  · exact (c6_lookup_linear_walk (NewHashRing 1) "k").1 rfl
  · exact (c6_lookup_linear_walk ((NewHashRing 1).AddNode ⟨"a", "x"⟩) "k").2

theorem uniqNodes_ids_nodup (l : List NodeInfo) (seen : List String) :
    ((uniqNodes seen l).map (·.id)).Nodup
    ∧ ∀ x ∈ (uniqNodes seen l).map (·.id), x ∉ seen := by
  induction l generalizing seen with
  | nil => simp [uniqNodes]
  | cons n rest ih =>
      by_cases hmem : n.id ∈ seen
      · simp only [uniqNodes, if_pos hmem]
        exact ih seen
      · simp only [uniqNodes, if_neg hmem, List.map_cons]
        constructor
        · rw [List.nodup_cons]
          constructor
          · intro hin
            exact ((ih (n.id :: seen)).2 n.id hin) (List.mem_cons_self _ _)
          · exact (ih (n.id :: seen)).1
        · intro x hx hxseen
          rcases List.mem_cons.mp hx with rfl | hx'
          · exact hmem hxseen
          · exact (ih (n.id :: seen)).2 x hx' (List.mem_cons_of_mem _ hxseen)

theorem uniqNodes_cons_not_seen (n : NodeInfo) (l : List NodeInfo)
    (seen : List String) (h : n.id ∉ seen) :
    uniqNodes seen (n :: l) = n :: uniqNodes (n.id :: seen) l := by
  simp [uniqNodes, h]

theorem collectUniq_eq_take (l : List NodeInfo) (cap : Nat)
    (seen : List String) :
    collectUniq cap seen l = (uniqNodes seen l).take cap := by
  induction l generalizing cap seen with
  | nil => simp [collectUniq, uniqNodes]
  | cons n rest ih =>
      by_cases hcap : cap = 0
      · subst hcap
        simp [collectUniq]
      · by_cases hmem : n.id ∈ seen
        · simp only [collectUniq, if_neg hcap, if_pos hmem, uniqNodes]
          exact ih cap seen
        · obtain ⟨cap', rfl⟩ : ∃ c', cap = c' + 1 := ⟨cap - 1, by omega⟩
          simp only [collectUniq, if_neg hcap, if_neg hmem, uniqNodes,
            List.take_succ_cons]
          rw [show cap' + 1 - 1 = cap' by omega]
          rw [ih]

theorem length_uniqNodes (l : List NodeInfo) (seen : List String) :
    (uniqNodes seen l).length
      = ((l.map (·.id)).toFinset \ seen.toFinset).card := by
  induction l generalizing seen with
  | nil => simp [uniqNodes]
  | cons n rest ih =>
      by_cases hmem : n.id ∈ seen
      · simp only [uniqNodes, if_pos hmem, List.map_cons, List.toFinset_cons]
        rw [Finset.insert_sdiff_of_mem _ (List.mem_toFinset.mpr hmem)]
        exact ih seen
      · simp only [uniqNodes, if_neg hmem, List.map_cons, List.toFinset_cons,
          List.length_cons]
        rw [ih (n.id :: seen)]
        rw [show (n.id :: seen).toFinset = insert n.id seen.toFinset from
          List.toFinset_cons]
        rw [Finset.sdiff_insert]
        rw [Finset.insert_sdiff_of_not_mem _ (by simpa using hmem)]
        by_cases hx : n.id ∈ (rest.map (·.id)).toFinset \ seen.toFinset
        · rw [Finset.card_erase_of_mem hx, Finset.insert_eq_self.mpr hx]
          have hpos : 0 < ((rest.map (·.id)).toFinset \ seen.toFinset).card :=
            Finset.card_pos.mpr ⟨_, hx⟩
          omega
        · rw [Finset.erase_eq_self.mpr hx, Finset.card_insert_of_not_mem hx]

/-- C7: the successor walk returns pairwise-distinct node ids, exactly
`min count (number of distinct owner ids on the ring)` of them, and (when
`count > 0`) starts with the owner that `Lookup` returns. -/
theorem c7_successors_spec (hr : HashRing) (key : String) (count : Nat) :
    ((hr.GetSuccessorNodes key count).map (·.id)).Nodup
    ∧ (hr.GetSuccessorNodes key count).length = min count (ringIds hr).length
    ∧ (0 < count →
        (hr.GetSuccessorNodes key count).head? = hr.Lookup key) := by
  by_cases hstop : hr.hashes = [] ∨ count = 0
  · have hres : hr.GetSuccessorNodes key count = [] := by
      unfold HashRing.GetSuccessorNodes
      rw [if_pos hstop]
    rcases hstop with hnil | hzero
    · refine ⟨by simp [hres], ?_, ?_⟩
      · simp [hres, ringIds, hnil]
      · intro _
        simp [hres, HashRing.Lookup, hnil]
    · subst hzero
      refine ⟨by simp [hres], by simp [hres], by omega⟩
  · push_neg at hstop
    obtain ⟨hnil, hcap⟩ := hstop
    have hlen : 0 < hr.hashes.length := List.length_pos.mpr hnil
    have hidxlt : hr.startIdx (hashStr key) < hr.hashes.length := by
      unfold HashRing.startIdx
      by_cases hq : hr.hashes.findIdx (fun p => hashStr key ≤ p)
          = hr.hashes.length
      · rw [if_pos hq]
        exact hlen
      · rw [if_neg hq]
        have h2 : hr.hashes.findIdx (fun p => hashStr key ≤ p)
            ≤ hr.hashes.length := List.findIdx_le_length _
        omega
    have hres : hr.GetSuccessorNodes key count
        = collectUniq count []
            ((hr.hashes.rotate (hr.startIdx (hashStr key))).map
              (nodeAt hr.nodes)) := by
      unfold HashRing.GetSuccessorNodes
      rw [if_neg (by push_neg; exact ⟨hnil, hcap⟩)]
    set idx := hr.startIdx (hashStr key) with hidx
    set rotated := (hr.hashes.rotate idx).map (nodeAt hr.nodes) with hrot
    have htake : hr.GetSuccessorNodes key count
        = (uniqNodes [] rotated).take count := by
      rw [hres, collectUniq_eq_take]
    refine ⟨?_, ?_, ?_⟩
    · -- pairwise distinct ids
      rw [htake]
      have hnd := (uniqNodes_ids_nodup rotated []).1
      have hsub : List.Sublist (((uniqNodes [] rotated).take count).map (·.id))
          ((uniqNodes [] rotated).map (·.id)) :=
        (List.take_sublist _ _).map _
      exact hnd.sublist hsub
    · -- exact length
      rw [htake, List.length_take]
      congr 1
      rw [length_uniqNodes]
      simp only [List.toFinset_nil, Finset.sdiff_empty]
      have hperm : (rotated.map (·.id)).Perm
          ((hr.hashes.map (nodeAt hr.nodes)).map (·.id)) :=
        (((hr.hashes.rotate_perm idx).map (nodeAt hr.nodes)).map (·.id))
      rw [List.toFinset_eq_of_perm _ _ hperm]
      rw [List.card_toFinset]
      rfl
    · -- head agreement with Lookup
      intro _
      have hval : hr.hashes[idx]? = some (hr.hashes.getD idx 0) := by
        rw [List.getElem?_eq_getElem hidxlt]
        rw [List.getD_eq_getElem _ _ hidxlt]
      have hrothead : (hr.hashes.rotate idx).head?
          = some (hr.hashes.getD idx 0) := by
        rw [List.head?_rotate hidxlt]
        exact hval
      have hrotcases : ∃ t, hr.hashes.rotate idx
          = hr.hashes.getD idx 0 :: t := by
        cases hr2 : hr.hashes.rotate idx with
        | nil =>
            rw [hr2] at hrothead
            exact absurd hrothead (by simp)
        | cons a t =>
            rw [hr2, List.head?_cons] at hrothead
            have ha := Option.some.inj hrothead
            exact ⟨t, by rw [ha]⟩
      obtain ⟨t, ht⟩ := hrotcases
      have hrot2 : rotated = nodeAt hr.nodes (hr.hashes.getD idx 0)
          :: t.map (nodeAt hr.nodes) := by
        rw [hrot, ht, List.map_cons]
      rw [htake, hrot2]
      rw [uniqNodes_cons_not_seen _ _ _ (by simp)]
      obtain ⟨c', rfl⟩ : ∃ c', count = c' + 1 := ⟨count - 1, by omega⟩
      rw [List.take_succ_cons]
      rw [List.head?_cons]
      unfold HashRing.Lookup
      rw [if_neg hnil]

/-- C7 witness: a concrete two-node ring with one virtual position per
node. -/
theorem c7_successors_spec_witness :
    ((((NewHashRing 1).AddNode ⟨"a", "x"⟩).AddNode
        ⟨"b", "y"⟩).GetSuccessorNodes "k" 2).length
      = min 2 (ringIds (((NewHashRing 1).AddNode ⟨"a", "x"⟩).AddNode
          ⟨"b", "y"⟩)).length
    ∧ ((((NewHashRing 1).AddNode ⟨"a", "x"⟩).AddNode
        ⟨"b", "y"⟩).GetSuccessorNodes "k" 2).head?
      = (((NewHashRing 1).AddNode ⟨"a", "x"⟩).AddNode ⟨"b", "y"⟩).Lookup
          "k" := by
  refine ⟨(c7_successors_spec (((NewHashRing 1).AddNode ⟨"a", "x"⟩).AddNode
    ⟨"b", "y"⟩) "k" 2).2.1, ?_⟩
  exact (c7_successors_spec (((NewHashRing 1).AddNode ⟨"a", "x"⟩).AddNode
    ⟨"b", "y"⟩) "k" 2).2.2 (by omega)

/-- C8 (counterexample): re-adding an already present node through the raw
`HashRing.AddNode` appends `replicas` fresh virtual positions instead of
being a no-op or a full replacement: with `replicas = 1` the ring holds 2
positions for one distinct node after a repeated add. -/
theorem c8_hashring_add_duplicates :
    (((NewHashRing 1).AddNode ⟨"a", "x"⟩).AddNode ⟨"a", "x"⟩).hashes.length = 2
    ∧ ((NewHashRing 1).AddNode ⟨"a", "x"⟩).hashes.length = 1
    ∧ ((NewHashRing 1).AddNode ⟨"a", "x"⟩).replicas = 1 := by
  decide

/-- C8 (amended): membership-level adds are idempotent —
`ClusterState.AddNode` is a no-op for an id that is already a member, so a
repeated add leaves the cluster state (and its ring) unchanged; only the
raw `HashRing.AddNode` duplicates positions. -/
theorem c8_clusterstate_add_idempotent (cs : ClusterState) (n : NodeInfo) :
    (cs.AddNode n).AddNode n = cs.AddNode n := by
  unfold ClusterState.AddNode
  cases hres : mapGet? cs.nodesMap n.id with
  | some m => simp [hres]
  | none =>
      simp only [hres]
      rw [show mapGet? (mapSet cs.nodesMap n.id n) n.id = some n from
        mapGet?_mapSet_self _ _ _]

theorem mapGet?_eq_none_of_not_mem {κ α : Type} [DecidableEq κ]
    (m : List (κ × α)) (k : κ) (h : k ∉ mapKeys m) : mapGet? m k = none := by
  by_contra hne
  exact h ((mem_mapKeys_iff m k).mpr hne)

theorem mapSet_append_absent {κ α : Type} [DecidableEq κ]
    (m : List (κ × α)) (k : κ) (v : α) (h : mapGet? m k = none) :
    mapSet m k v = m ++ [(k, v)] := by
  induction m with
  | nil => rfl
  | cons hd tl ih =>
      obtain ⟨k₀, v₀⟩ := hd
      by_cases hk : k₀ = k
      · subst hk
        simp [mapGet?] at h
      · simp only [mapGet?_cons, if_neg hk] at h
        simp [mapSet, hk, ih h]

theorem foldl_mapSet_eq (kvs acc : List (String × Item))
    (h : (mapKeys acc ++ mapKeys kvs).Nodup) :
    kvs.foldl (fun m kv => mapSet m kv.1 kv.2) acc = acc ++ kvs := by
  induction kvs generalizing acc with
  | nil => simp
  | cons kv rest ih =>
      obtain ⟨k, v⟩ := kv
      have hdisj := (List.nodup_append.mp h).2.2
      have hknotin : k ∉ mapKeys acc := fun hk =>
        hdisj hk (by simp [mapKeys])
      have hkabs : mapGet? acc k = none :=
        mapGet?_eq_none_of_not_mem _ _ hknotin
      rw [List.foldl_cons]
      rw [show mapSet acc k v = acc ++ [(k, v)] from
        mapSet_append_absent _ _ _ hkabs]
      rw [ih (acc ++ [(k, v)]) ?_]
      · simp
      · have : mapKeys (acc ++ [(k, v)]) ++ mapKeys rest
            = mapKeys acc ++ mapKeys ((k, v) :: rest) := by
          simp [mapKeys]
        rw [this]
        exact h

theorem mapGet?_filter_expired (items : List (String × Item)) (now : Int)
    (hnd : (mapKeys items).Nodup) (k : String) :
    mapGet? (items.filter (fun kv => !(kv.2.isExpired now))) k
      = match mapGet? items k with
        | some it => if it.isExpired now then none else some it
        | none => none := by
  induction items with
  | nil => simp
  | cons kv rest ih =>
      obtain ⟨k0, v0⟩ := kv
      have hnd' : (mapKeys rest).Nodup := by
        rw [mapKeys, List.map_cons, List.nodup_cons] at hnd
        exact hnd.2
      have hk0notin : k0 ∉ mapKeys rest := by
        rw [mapKeys, List.map_cons, List.nodup_cons] at hnd
        exact hnd.1
      by_cases hk : k0 = k
      · subst hk
        by_cases hexp : v0.isExpired now = true
        · rw [List.filter_cons]
          rw [if_neg (by simp [hexp])]
          have hsub : List.Sublist
              (mapKeys (rest.filter (fun kv => !(kv.2.isExpired now))))
              (mapKeys rest) := (List.filter_sublist rest).map _
          have habs : mapGet?
              (rest.filter (fun kv => !(kv.2.isExpired now))) k0 = none :=
            mapGet?_eq_none_of_not_mem _ _
              (fun hmem => hk0notin (hsub.subset hmem))
          rw [habs]
          simp [hexp]
        · rw [List.filter_cons]
          rw [if_pos (by simp [hexp])]
          simp [hexp]
      · rw [List.filter_cons]
        by_cases hexp : v0.isExpired now = true
        · rw [if_neg (by simp [hexp])]
          rw [ih hnd']
          simp [hk]
        · rw [if_pos (by simp [hexp])]
          simp only [mapGet?_cons, if_neg hk]
          exact ih hnd'

/-- C9: restoring a tenant from its own snapshot replaces the store's
contents wholesale with exactly the snapshot entries not yet expired at
the restore instant, pushes every restored key to the LRU front in
iteration order (so the final LRU is the reversed iteration order), and
is observationally equivalent to the original store modulo the items that
expired during the round-trip. -/
theorem c9_snapshot_restore_roundtrip (c : Cache) (uid : String)
    (uc : UserCache) (now : Int)
    (h : mapGet? c.users uid = some uc)
    (hnd : (mapKeys uc.items).Nodup) :
    c.SnapshotUser uid
      = .ok ⟨uid, uc.items.map (fun kv => ⟨kv.1, kv.2.value, kv.2.expiresAt⟩)⟩
    ∧ mapGet? (c.RestoreUserFromSnapshot
        ⟨uid, uc.items.map (fun kv => ⟨kv.1, kv.2.value, kv.2.expiresAt⟩)⟩
        now).users uid
      = some { uc with
          items := uc.items.filter (fun kv => !(kv.2.isExpired now)),
          lru := ((uc.items.filter (fun kv => !(kv.2.isExpired now))).map
            (·.1)).reverse }
    ∧ (∀ k, mapGet? (uc.items.filter (fun kv => !(kv.2.isExpired now))) k
        = match mapGet? uc.items k with
          | some it => if it.isExpired now then none else some it
          | none => none) := by
  have hfiltered : (uc.items.map
        (fun kv => (⟨kv.1, kv.2.value, kv.2.expiresAt⟩ : PersistedItem))).filter
        (fun p => !(persistedExpired p now))
      = (uc.items.filter (fun kv => !(kv.2.isExpired now))).map
          (fun kv => ⟨kv.1, kv.2.value, kv.2.expiresAt⟩) := by
    rw [List.filter_map]
    have hfn : ((fun p => !(persistedExpired p now)) ∘
        (fun kv : String × Item =>
          (⟨kv.1, kv.2.value, kv.2.expiresAt⟩ : PersistedItem)))
        = (fun kv : String × Item => !(kv.2.isExpired now)) := by
      funext kv
      cases he : kv.2.expiresAt <;>
        simp [persistedExpired, Item.isExpired, he, Function.comp]
    rw [hfn]
  refine ⟨?_, ?_, fun k => mapGet?_filter_expired uc.items now hnd k⟩
  · unfold Cache.SnapshotUser Cache.getUser
    rw [h]
    rfl
  · unfold Cache.RestoreUserFromSnapshot
    rw [h]
    simp only [hfiltered]
    rw [List.foldl_map]
    have hfold : (uc.items.filter (fun kv => !(kv.2.isExpired now))).foldl
        (fun m kv => mapSet m kv.1 kv.2) []
        = uc.items.filter (fun kv => !(kv.2.isExpired now)) := by
      have hndf : ((mapKeys ([] : List (String × Item)))
          ++ mapKeys (uc.items.filter (fun kv => !(kv.2.isExpired now)))).Nodup := by
        simp only [mapKeys, List.map_nil, List.nil_append]
        exact hnd.sublist ((List.filter_sublist uc.items).map _)
      simpa using foldl_mapSet_eq _ [] hndf
    rw [show (fun (m : List (String × Item))
          (kv : String × Item) =>
            mapSet m (⟨kv.1, kv.2.value, kv.2.expiresAt⟩ : PersistedItem).key
              ⟨(⟨kv.1, kv.2.value, kv.2.expiresAt⟩ : PersistedItem).value,
               (⟨kv.1, kv.2.value, kv.2.expiresAt⟩ : PersistedItem).expiresAt⟩)
        = (fun m kv => mapSet m kv.1 kv.2) from rfl]
    rw [hfold]
    rw [mapGet?_mapSet_self]
    unfold UserCache.RestoreFromSnapshot
    rfl

/-- C9 witness: a tenant with one live and one already expired item; the
restore keeps exactly the live one, as most-recent. -/
theorem c9_snapshot_restore_roundtrip_witness :
    (Cache.mk [("u", UserCache.mk [("a", ⟨[1], none⟩), ("b", ⟨[2], some 3⟩)]
        ["a", "b"] 0)] ⟨1, 0, 0, "d"⟩).SnapshotUser "u"
      = .ok ⟨"u", [⟨"a", [1], none⟩, ⟨"b", [2], some 3⟩]⟩
    ∧ mapGet? ((Cache.mk [("u", UserCache.mk [("a", ⟨[1], none⟩),
        ("b", ⟨[2], some 3⟩)] ["a", "b"] 0)]
        ⟨1, 0, 0, "d"⟩).RestoreUserFromSnapshot
          ⟨"u", [⟨"a", [1], none⟩, ⟨"b", [2], some 3⟩]⟩ 10).users "u"
      = some (UserCache.mk [("a", ⟨[1], none⟩)] ["a"] 0) := by
  have h := c9_snapshot_restore_roundtrip
    (Cache.mk [("u", UserCache.mk [("a", ⟨[1], none⟩), ("b", ⟨[2], some 3⟩)]
      ["a", "b"] 0)] ⟨1, 0, 0, "d"⟩) "u"
    (UserCache.mk [("a", ⟨[1], none⟩), ("b", ⟨[2], some 3⟩)] ["a", "b"] 0)
    10 (by decide) (by decide)
  exact ⟨h.1, h.2.1⟩

end DCache
